import Mathlib

/-!
Shallow embedding of the log-to-step segmentation engine of
scripts/scrap_formated_runsv2.py: the methods get_step_workflow_code,
get_step_identifier and parse_log_by_steps of the scraper class.
Python strings are Lean strings, the dict-based step specifications a
record of optional fields, and the two regular-expression idioms the
engine uses (substitution of fixed shapes, and re.search of an escaped
literal between word boundaries, case-insensitive) are modelled directly
on character lists.
-/

namespace GhaSeg

/-- Python whitespace of str.strip: space, tab, newline, carriage return,
vertical tab, form feed (the ASCII set; the engine only meets ASCII text). -/
def isPySpace (c : Char) : Bool :=
  c == ' ' || c == '\t' || c == '\n' || c == '\r' || c == '\x0b' || c == '\x0c'

/-- Python str.strip(): leading and trailing whitespace dropped. -/
def pyStrip (cs : List Char) : List Char :=
  ((cs.dropWhile isPySpace).reverse.dropWhile isPySpace).reverse

/-- Python substring test, the in operator on str. -/
def containsSub (needle : List Char) : List Char → Bool
  | [] => needle.isEmpty
  | c :: rest => needle.isPrefixOf (c :: rest) || containsSub needle rest

def pyIn (needle hay : String) : Bool := containsSub needle.toList hay.toList

/-- Python str.split on the newline separator: every occurrence splits,
empty pieces are kept, the empty string gives one empty piece. -/
def splitLF : List Char → List (List Char)
  | [] => [[]]
  | '\n' :: rest => [] :: splitLF rest
  | c :: rest =>
    match splitLF rest with
    | [] => [[c]]
    | l :: ls => (c :: l) :: ls

def pySplitLF (s : String) : List String := (splitLF s.toList).map List.asString

/-- Python str.splitlines restricted to the terminators LF, CR and CRLF:
each terminator ends a line, a trailing piece without a terminator is a
line, the empty string has no lines. -/
def splitlinesAux : List Char → List Char → List (List Char)
  | [], acc => if acc.isEmpty then [] else [acc.reverse]
  | '\r' :: '\n' :: rest, acc => acc.reverse :: splitlinesAux rest []
  | '\r' :: rest, acc => acc.reverse :: splitlinesAux rest []
  | '\n' :: rest, acc => acc.reverse :: splitlinesAux rest []
  | c :: rest, acc => splitlinesAux rest (c :: acc)

def pySplitlines (s : String) : List String :=
  (splitlinesAux s.toList []).map List.asString

/-- Index of the first line satisfying p, as the engine's linear scans find it. -/
def findLineIdx (p : String → Bool) : List String → Option Nat
  | [] => none
  | l :: rest => if p l then some 0 else (findLineIdx p rest).map (· + 1)

/-- When cs begins with a terminal escape sequence (the source's regex
of ESC, a bracket, digits or semicolons, then m or K), the characters
after that sequence. -/
def ansiTail (cs : List Char) : Option (List Char) :=
  match cs with
  | '\x1b' :: '[' :: rest =>
    match rest.drop ((rest.takeWhile fun d => d.isDigit || d == ';').length) with
    | 'm' :: tail => some tail
    | 'K' :: tail => some tail
    | _ => none
  | _ => none

/-- One left-to-right pass deleting every terminal escape sequence, as
re.sub does; the fuel starts at the length of the text and never runs out,
since each step consumes at least one character. -/
def stripAnsiAux : Nat → List Char → List Char
  | 0, cs => cs
  | fuel + 1, cs =>
    match ansiTail cs with
    | some tail => stripAnsiAux fuel tail
    | none =>
      match cs with
      | [] => []
      | c :: rest => c :: stripAnsiAux fuel rest

def stripAnsi (cs : List Char) : List Char := stripAnsiAux cs.length cs

/-- When cs begins with a provider log marker (two hashes, a bracket, one
or more characters other than a closing bracket, then the closing
bracket), the characters after that marker. -/
def markerTail (cs : List Char) : Option (List Char) :=
  match cs with
  | '#' :: '#' :: '[' :: rest =>
    let body := rest.takeWhile fun d => !(d == ']')
    if body.isEmpty then none
    else
      match rest.drop body.length with
      | ']' :: tail => some tail
      | _ => none
  | _ => none

/-- One left-to-right pass deleting every provider log marker, as re.sub
does; fuelled like stripAnsiAux. -/
def stripMarkersAux : Nat → List Char → List Char
  | 0, cs => cs
  | fuel + 1, cs =>
    match markerTail cs with
    | some tail => stripMarkersAux fuel tail
    | none =>
      match cs with
      | [] => []
      | c :: rest => c :: stripMarkersAux fuel rest

def stripMarkers (cs : List Char) : List Char := stripMarkersAux cs.length cs

/-- The normalizer of parse_log_by_steps (source lines 341 to 344): escape
sequences removed, then group and section markers removed. -/
def cleanLog (log : String) : String :=
  List.asString (stripMarkers (stripAnsi log.toList))

/-- The engine's line coordinate system: the cleaned log split on newline
(source line 345). -/
def logLines (log : String) : List String := pySplitLF (cleanLog log)

/-- A regex word character, over the engine's ASCII alphabet: a letter, a
digit or the underscore. The hyphen is not a word character. -/
def isWordChar (c : Char) : Bool := c.isAlphanum || c == '_'

/-- A regex word boundary at position i of cs: exactly one side of the
position holds a word character (the edges of the text count as non-word). -/
def boundaryAt (cs : List Char) (i : Nat) : Bool :=
  (decide (0 < i) && isWordChar (cs.getD (i - 1) ' ')) !=
    (decide (i < cs.length) && isWordChar (cs.getD i ' '))

/-- The locator's match test at one position: the escaped identifier is a
literal, so re.search of it between word boundaries with IGNORECASE holds
at i exactly when the characters at i equal pat up to case and both ends
of that span sit on word boundaries. -/
def matchesAt (cs pat : List Char) (i : Nat) : Bool :=
  decide (i + pat.length ≤ cs.length) &&
    ((cs.drop i).take pat.length).map Char.toLower == pat.map Char.toLower &&
    boundaryAt cs i && boundaryAt cs (i + pat.length)

/-- re.search over the whole line: a match at some position. -/
def reSearchCI (pat line : String) : Bool :=
  (List.range (line.toList.length + 1)).any fun i => matchesAt line.toList pat.toList i

/-- One step of the workflow definition: the dict the YAML parser hands
the engine, with optional name, run and uses entries and the with and env
mappings (the first is named wth here, with being a Lean keyword). An
absent entry is none, an absent mapping the empty list. -/
structure StepSpec where
  name : Option String := none
  run : Option String := none
  uses : Option String := none
  wth : List (String × String) := []
  env : List (String × String) := []
deriving DecidableEq

/-- The per-step search state of parse_log_by_steps (source lines 369 to 377). -/
structure Pattern where
  step : StepSpec
  pattern : String
  found : Bool
  start_idx : Int
  end_idx : Int
deriving DecidableEq

/-- One emitted record. The setup record of the source carries only name,
type, log_content, start_line and end_line; the fields the source's dict
lacks are none or empty here. -/
structure StepRecord where
  name : String
  type : String
  log_content : String
  start_line : Int
  end_line : Int
  uses : Option String := none
  run : Option String := none
  wth : List (String × String) := []
  env : List (String × String) := []
  pattern_matched : Option String := none
  note : Option String := none
  workflow_code : Option String := none
deriving DecidableEq

/-- get_step_workflow_code (source lines 262 to 289): the display
rendering of a step, one block per present field, joined with newlines. -/
def get_step_workflow_code (step : StepSpec) : String :=
  let code_lines : List String :=
    (match step.run with | some r => ["Run:\n" ++ r] | none => []) ++
    (match step.uses with | some u => ["Uses: " ++ u] | none => []) ++
    (match step.name with | some n => ["Name: " ++ n] | none => []) ++
    (if step.wth.isEmpty then []
     else "With:" :: step.wth.map fun kv => "  " ++ kv.1 ++ ": " ++ kv.2) ++
    (if step.env.isEmpty then []
     else "Env:" :: step.env.map fun kv => "  " ++ kv.1 ++ ": " ++ kv.2)
  String.intercalate "\n" code_lines

/-- get_step_identifier (source lines 292 to 323): the matchable token of
a step. A present run wins: its first line, leading literal-block bars
then surrounding whitespace stripped, after the fixed tag; the empty run
string has no lines and falls back to the placeholder. Then uses, then
name, then the placeholder. A wholly absent step takes the same final
placeholder branch. -/
def get_step_identifier (step : StepSpec) : String :=
  match step.run with
  | some raw =>
    match pySplitlines raw with
    | first :: _ =>
      "Run " ++ List.asString (pyStrip ((first.toList).dropWhile fun c => c == '|'))
    | [] => "Run Unknown Step"
  | none =>
    match step.uses with
    | some u => "Run " ++ u
    | none =>
      match step.name with
      | some n => "Run " ++ n
      | none => "Run Unknown Step"

/-- A fresh pattern for one step (source lines 371 to 377). -/
def mkPattern (step : StepSpec) : Pattern :=
  { step := step, pattern := get_step_identifier step,
    found := false, start_idx := -1, end_idx := -1 }

/-- The inner loop of the locator (source lines 385 to 392): the first
still-unfound pattern matching the line is marked found at absolute index
i, and the break leaves every later pattern untouched. -/
def assignLine (ps : List Pattern) (i : Nat) (line : String) : List Pattern :=
  match ps with
  | [] => []
  | p :: rest =>
    if !p.found && reSearchCI p.pattern line then
      { p with found := true, start_idx := (i : Int) } :: rest
    else
      p :: assignLine rest i line

/-- The outer loop of the locator (source lines 384 to 392): one pass over
the remaining lines, enumerate giving each line its absolute index. -/
def locateSteps (ps : List Pattern) (lines : List String) (start : Nat) : List Pattern :=
  match lines with
  | [] => ps
  | l :: rest => locateSteps (assignLine ps start l) rest (start + 1)

/-- The key order of the sort of the found patterns (source line 397). -/
def startLE (a b : Pattern) : Prop := a.start_idx ≤ b.start_idx

instance : DecidableRel startLE := fun a b => Int.decLe a.start_idx b.start_idx

instance : IsTotal Pattern startLE := ⟨fun a b => Int.le_total a.start_idx b.start_idx⟩

instance : IsTrans Pattern startLE := ⟨fun _ _ _ h1 h2 => Int.le_trans h1 h2⟩

/-- The sort of the found patterns by start_idx (source line 397): a
stable insertion sort ascending by the key; the found start indices are
pairwise distinct, so every sort by this key produces the list the
source's sort builds. -/
def sortPatterns (ps : List Pattern) : List Pattern := List.insertionSort startLE ps

/-- The range assigner (source lines 399 to 409): each found pattern ends
one line before the next found pattern's start, the last one at the last
line of the log. -/
def assignRanges : List Pattern → Nat → List Pattern
  | [], _ => []
  | [p], total => [{ p with end_idx := (total : Int) - 1 }]
  | p :: q :: rest, total =>
    { p with end_idx := q.start_idx - 1 } :: assignRanges (q :: rest) total

/-- The slice log_lines from s through e joined with newlines (source
lines 412 to 413); s is nonnegative at every use. -/
def sliceJoin (lines : List String) (s e : Int) : String :=
  String.intercalate "\n" ((lines.drop s.toNat).take (e + 1 - s).toNat)

/-- The record of a found pattern (source lines 416 to 429). -/
def buildFoundRecord (log_lines : List String) (p : Pattern) : StepRecord :=
  { name := p.step.name.getD ("Run " ++ p.step.uses.getD "")
    type := "action"
    uses := p.step.uses
    run := p.step.run
    wth := p.step.wth
    env := p.step.env
    log_content := sliceJoin log_lines p.start_idx p.end_idx
    start_line := p.start_idx
    end_line := p.end_idx
    pattern_matched := some p.pattern
    note := none
    workflow_code := some (get_step_workflow_code p.step) }

/-- The record of a pattern never found (source lines 432 to 448). -/
def buildUnfoundRecord (p : Pattern) : StepRecord :=
  { name := p.step.name.getD "Unnamed Step"
    type := "action"
    uses := p.step.uses
    run := p.step.run
    wth := p.step.wth
    env := p.step.env
    log_content := ""
    start_line := -1
    end_line := -1
    pattern_matched := some p.pattern
    note := some "Step not found in log"
    workflow_code := some (get_step_workflow_code p.step) }

/-- The sentinel ending the setup segment (source line 348). -/
def sentinelOf (job_name : String) : String := "Complete job name: " ++ job_name

/-- setup_end_idx after the scan of source lines 349 to 355: the index of
the first line containing the sentinel, or its initial value 0 when no
line does. -/
def setupEndIdx (lines : List String) (job_name : String) : Nat :=
  (findLineIdx (fun l => pyIn (sentinelOf job_name) l) lines).getD 0

/-- setup_log after the same scan: every line strictly before the first
sentinel line, or every line when the sentinel is absent. -/
def setupLog (lines : List String) (job_name : String) : List String :=
  match findLineIdx (fun l => pyIn (sentinelOf job_name) l) lines with
  | some i => lines.take i
  | none => lines

/-- The setup record (source lines 358 to 364). -/
def setupRecord (lines : List String) (job_name : String) : StepRecord :=
  { name := "Set up job", type := "setup",
    log_content := String.intercalate "\n" (setupLog lines job_name),
    start_line := 0, end_line := (setupEndIdx lines job_name : Int) }

/-- The locator applied as the source applies it: the fresh patterns in
step order, the lines after the setup boundary, absolute indices starting
one past that boundary (source lines 382 to 392). -/
def locatedPatterns (lines : List String) (job_steps : List StepSpec)
    (job_name : String) : List Pattern :=
  locateSteps (job_steps.map mkPattern)
    (lines.drop (setupEndIdx lines job_name + 1)) (setupEndIdx lines job_name + 1)

/-- parse_log_by_steps (source lines 326 to 451): normalize, detect the
setup segment, derive one pattern per step, locate, assign ranges to the
found patterns sorted by start, and emit the setup record, the found
records in sorted order, then the unfound records in input order. -/
def parse_log_by_steps (log_content : String) (job_steps : List StepSpec)
    (job_name : String) : List StepRecord :=
  let log_lines := logLines log_content
  let located := locatedPatterns log_lines job_steps job_name
  setupRecord log_lines job_name ::
    ((assignRanges (sortPatterns (located.filter fun p => p.found)) log_lines.length).map
        (buildFoundRecord log_lines) ++
      (located.filter fun p => !p.found).map buildUnfoundRecord)

/-- Ranges of a record list are contiguous and close at the last log
line: each record ends one line before the next starts, and the last one
ends at total minus one. -/
def contiguousRecords : List StepRecord → Int → Bool
  | [], _ => true
  | [r], total => r.end_line == total - 1
  | r :: s :: rest, total =>
    (r.end_line == s.start_line - 1) && contiguousRecords (s :: rest) total

/-! Plumbing for pointwise relations between the pattern list and its
image under the locator and the range assigner. -/

theorem forall₂_comp {α : Type} {R S T : α → α → Prop} {l₁ l₂ l₃ : List α}
    (h : ∀ a b c, R a b → S b c → T a c)
    (h12 : List.Forall₂ R l₁ l₂) (h23 : List.Forall₂ S l₂ l₃) :
    List.Forall₂ T l₁ l₃ := by
  induction h12 generalizing l₃ with
  | nil => cases h23; exact .nil
  | cons hab _ ih =>
    cases h23 with
    | cons hbc htl2 => exact .cons (h _ _ _ hab hbc) (ih htl2)

theorem forall₂_mem_right {α β : Type} {R : α → β → Prop} {l₁ : List α} {l₂ : List β}
    (h : List.Forall₂ R l₁ l₂) {b : β} (hb : b ∈ l₂) : ∃ a ∈ l₁, R a b := by
  induction h with
  | nil => cases hb
  | cons hab _ ih =>
    rcases List.mem_cons.mp hb with rfl | hb2
    · exact ⟨_, List.mem_cons_self .., hab⟩
    · obtain ⟨a, ha, hr⟩ := ih hb2
      exact ⟨a, List.mem_cons_of_mem _ ha, hr⟩

theorem forall₂_mem_left {α β : Type} {R : α → β → Prop} {l₁ : List α} {l₂ : List β}
    (h : List.Forall₂ R l₁ l₂) {a : α} (ha : a ∈ l₁) : ∃ b ∈ l₂, R a b := by
  induction h with
  | nil => cases ha
  | cons hab _ ih =>
    rcases List.mem_cons.mp ha with rfl | ha2
    · exact ⟨_, List.mem_cons_self .., hab⟩
    · obtain ⟨b, hb, hr⟩ := ih ha2
      exact ⟨b, List.mem_cons_of_mem _ hb, hr⟩

theorem forall₂_map_eq {α β : Type} {f : α → β} {g : α → β} {l₁ l₂ : List α}
    (h : List.Forall₂ (fun a b => g b = f a) l₁ l₂) : l₂.map g = l₁.map f := by
  induction h with
  | nil => rfl
  | cons hab _ ih => simp [ih, hab]

/-- What one call of the inner loop does to one pattern at its position:
its identity fields survive, a found pattern is untouched, an unfound one
is untouched or marked found at this line's index having matched it. -/
def AssignRel (i : Nat) (line : String) (p q : Pattern) : Prop :=
  q.step = p.step ∧ q.pattern = p.pattern ∧ q.end_idx = p.end_idx ∧
    (p.found = true → q = p) ∧
    (p.found = false → q = p ∨
      (q = { p with found := true, start_idx := (i : Int) } ∧
        reSearchCI p.pattern line = true))

theorem assignLine_rel (ps : List Pattern) (i : Nat) (line : String) :
    List.Forall₂ (AssignRel i line) ps (assignLine ps i line) := by
  induction ps with
  | nil => exact .nil
  | cons p rest ih =>
    by_cases h : (!p.found && reSearchCI p.pattern line) = true
    · have h2 : p.found = false ∧ reSearchCI p.pattern line = true := by simpa using h
      have hf : p.found = false := h2.1
      have hm : reSearchCI p.pattern line = true := h2.2
      rw [show assignLine (p :: rest) i line =
          { p with found := true, start_idx := (i : Int) } :: rest by
        simp [assignLine, h]]
      refine .cons ⟨rfl, rfl, rfl, fun hc => absurd hc (by simp [hf]), fun _ => .inr ⟨rfl, hm⟩⟩ ?_
      exact List.forall₂_same.mpr fun q _ => ⟨rfl, rfl, rfl, fun _ => rfl, fun _ => .inl rfl⟩
    · rw [show assignLine (p :: rest) i line = p :: assignLine rest i line by
        simp [assignLine, h]]
      exact .cons ⟨rfl, rfl, rfl, fun _ => rfl, fun _ => .inl rfl⟩ ih

/-- What the whole scan does to one pattern at its position: identity
fields survive, a found pattern is untouched, an unfound one is untouched
or marked found at the absolute index of a line it matches. -/
def LocRel (lines : List String) (start : Nat) (p q : Pattern) : Prop :=
  q.step = p.step ∧ q.pattern = p.pattern ∧ q.end_idx = p.end_idx ∧
    (p.found = true → q = p) ∧
    (p.found = false → q = p ∨
      (q.found = true ∧ ∃ k, k < lines.length ∧
        q.start_idx = ((start + k : Nat) : Int) ∧
        reSearchCI p.pattern (lines.getD k "") = true))

theorem locateSteps_rel (lines : List String) :
    ∀ (start : Nat) (ps : List Pattern),
      List.Forall₂ (LocRel lines start) ps (locateSteps ps lines start) := by
  induction lines with
  | nil =>
    intro start ps
    exact List.forall₂_same.mpr fun p _ => ⟨rfl, rfl, rfl, fun _ => rfl, fun _ => .inl rfl⟩
  | cons l rest ih =>
    intro start ps
    have h1 := assignLine_rel ps start l
    have h2 := ih (start + 1) (assignLine ps start l)
    rw [show locateSteps ps (l :: rest) start =
        locateSteps (assignLine ps start l) rest (start + 1) from rfl]
    refine forall₂_comp ?_ h1 h2
    intro p m q hpm hmq
    obtain ⟨hstep1, hpat1, hend1, hf1, hnf1⟩ := hpm
    obtain ⟨hstep2, hpat2, hend2, hf2, hnf2⟩ := hmq
    refine ⟨hstep2.trans hstep1, hpat2.trans hpat1, hend2.trans hend1, ?_, ?_⟩
    · intro hp
      have hmp := hf1 hp
      rw [hmp] at hf2
      exact hf2 hp
    · intro hp
      rcases hnf1 hp with hmp | ⟨hm, hmatch⟩
      · rw [hmp] at hnf2 hpat2
        rcases hnf2 hp with hq | ⟨hqf, k, hk, hs, hmt⟩
        · exact .inl hq
        · refine .inr ⟨hqf, k + 1, by simpa using hk, ?_, by simpa using hmt⟩
          rw [hs]
          congr 1
          omega
      · have hmf : m.found = true := by rw [hm]
        have hq : q = m := hf2 hmf
        refine .inr ⟨by rw [hq, hm], 0, by simp, ?_, by simpa using hmatch⟩
        rw [hq, hm]
        simp

/-- Found patterns hold pairwise distinct start indices. -/
def distinctStarts (p q : Pattern) : Prop :=
  p.found = true → q.found = true → p.start_idx ≠ q.start_idx

theorem assignLine_inv {ps : List Pattern} {i : Nat} {line : String}
    (hinv : ∀ p ∈ ps, p.found = true → p.start_idx < (i : Int)) :
    ∀ q ∈ assignLine ps i line, q.found = true → q.start_idx < (i : Int) + 1 := by
  intro q hq hqf
  obtain ⟨p, hp, hrel⟩ := forall₂_mem_right (assignLine_rel ps i line) hq
  obtain ⟨-, -, -, hf, hnf⟩ := hrel
  cases hpf : p.found with
  | true =>
    rw [hf hpf]
    have := hinv p hp hpf
    omega
  | false =>
    rcases hnf hpf with hqp | ⟨hqm, -⟩
    · rw [hqp, hpf] at hqf
      cases hqf
    · rw [hqm]
      simp

theorem assignLine_pairwise {ps : List Pattern} {i : Nat} {line : String}
    (hinv : ∀ p ∈ ps, p.found = true → p.start_idx < (i : Int))
    (hpw : List.Pairwise distinctStarts ps) :
    List.Pairwise distinctStarts (assignLine ps i line) := by
  induction ps with
  | nil => exact .nil
  | cons p rest ih =>
    rw [List.pairwise_cons] at hpw
    by_cases h : (!p.found && reSearchCI p.pattern line) = true
    · rw [show assignLine (p :: rest) i line =
          { p with found := true, start_idx := (i : Int) } :: rest by
        simp [assignLine, h]]
      refine List.Pairwise.cons ?_ hpw.2
      intro q hq _ hqf
      have := hinv q (List.mem_cons_of_mem _ hq) hqf
      simp only
      omega
    · rw [show assignLine (p :: rest) i line = p :: assignLine rest i line by
        simp [assignLine, h]]
      refine List.Pairwise.cons ?_
        (ih (fun r hr => hinv r (List.mem_cons_of_mem _ hr)) hpw.2)
      intro q hq hpf hqf
      obtain ⟨r, hr, hrel⟩ := forall₂_mem_right (assignLine_rel rest i line) hq
      obtain ⟨-, -, -, hf, hnf⟩ := hrel
      cases hrf : r.found with
      | true =>
        rw [hf hrf]
        exact hpw.1 r hr hpf ((hf hrf) ▸ hqf)
      | false =>
        rcases hnf hrf with hqr | ⟨hqm, -⟩
        · rw [hqr]
          exact hpw.1 r hr hpf (hqr ▸ hqf)
        · rw [hqm]
          have := hinv p (List.mem_cons_self ..) hpf
          simp only
          omega

theorem locateSteps_pairwise (lines : List String) :
    ∀ (start : Nat) (ps : List Pattern),
      (∀ p ∈ ps, p.found = true → p.start_idx < (start : Int)) →
      List.Pairwise distinctStarts ps →
      List.Pairwise distinctStarts (locateSteps ps lines start) := by
  induction lines with
  | nil => intro start ps _ hpw; exact hpw
  | cons l rest ih =>
    intro start ps hinv hpw
    rw [show locateSteps ps (l :: rest) start =
        locateSteps (assignLine ps start l) rest (start + 1) from rfl]
    refine ih (start + 1) _ ?_ (assignLine_pairwise hinv hpw)
    intro q hq hqf
    have := assignLine_inv hinv q hq hqf
    push_cast
    omega

theorem pairwise_distinct_of_unfound {ps : List Pattern}
    (h : ∀ p ∈ ps, p.found = false) : List.Pairwise distinctStarts ps := by
  have base : List.Pairwise (fun _ _ : Pattern => True) ps :=
    List.pairwise_of_forall fun _ _ => trivial
  refine base.imp_of_mem ?_
  intro a b ha _ _ haf _
  rw [h a ha] at haf
  cases haf

theorem assignLine_skip {qs : List Pattern} {i : Nat} {l : String}
    (h : ∀ p ∈ qs, p.found = true ∨ reSearchCI p.pattern l = false) :
    assignLine qs i l = qs := by
  induction qs with
  | nil => rfl
  | cons p rest ih =>
    have hcond : (!p.found && reSearchCI p.pattern l) = false := by
      rcases h p (List.mem_cons_self ..) with hf | hm
      · simp [hf]
      · simp [hm]
    simp [assignLine, hcond, ih fun q hq => h q (List.mem_cons_of_mem _ hq)]

theorem assignLine_first {pre post : List Pattern} {p : Pattern} {i : Nat} {l : String}
    (hpre : ∀ q ∈ pre, q.found = true ∨ reSearchCI q.pattern l = false)
    (hp : p.found = false) (hm : reSearchCI p.pattern l = true) :
    assignLine (pre ++ p :: post) i l =
      pre ++ { p with found := true, start_idx := (i : Int) } :: post := by
  induction pre with
  | nil => simp [assignLine, hp, hm]
  | cons q pre' ih =>
    have hcond : (!q.found && reSearchCI q.pattern l) = false := by
      rcases hpre q (List.mem_cons_self ..) with hf | hmq
      · simp [hf]
      · simp [hmq]
    simp [assignLine, hcond, ih fun r hr => hpre r (List.mem_cons_of_mem _ hr)]

theorem assignLine_length (ps : List Pattern) (i : Nat) (l : String) :
    (assignLine ps i l).length = ps.length :=
  (assignLine_rel ps i l).length_eq.symm

theorem locateSteps_length (ps : List Pattern) (lines : List String) (start : Nat) :
    (locateSteps ps lines start).length = ps.length :=
  (locateSteps_rel lines start ps).length_eq.symm

theorem length_filter_found (l : List Pattern) :
    (l.filter fun p => p.found).length + (l.filter fun p => !p.found).length = l.length := by
  induction l with
  | nil => rfl
  | cons p rest ih =>
    cases hpf : p.found <;> simp [List.filter_cons, hpf] <;> omega

theorem sortPatterns_perm (ps : List Pattern) : List.Perm (sortPatterns ps) ps :=
  List.perm_insertionSort startLE ps

theorem sortPatterns_sorted (ps : List Pattern) :
    List.Pairwise startLE (sortPatterns ps) :=
  List.sorted_insertionSort startLE ps

theorem assignRanges_head (q : Pattern) (qs : List Pattern) (total : Nat) :
    ∃ e tail, assignRanges (q :: qs) total = { q with end_idx := e } :: tail := by
  cases qs with
  | nil => exact ⟨(total : Int) - 1, [], rfl⟩
  | cons r rest => exact ⟨r.start_idx - 1, _, rfl⟩

theorem assignRanges_rel : ∀ (ps : List Pattern) (total : Nat),
    List.Forall₂ (fun p q => q.step = p.step ∧ q.pattern = p.pattern ∧
      q.found = p.found ∧ q.start_idx = p.start_idx) ps (assignRanges ps total)
  | [], _ => .nil
  | [_], _ => .cons ⟨rfl, rfl, rfl, rfl⟩ .nil
  | _ :: q :: rest, total => .cons ⟨rfl, rfl, rfl, rfl⟩ (assignRanges_rel (q :: rest) total)

theorem assignRanges_length (ps : List Pattern) (total : Nat) :
    (assignRanges ps total).length = ps.length :=
  (assignRanges_rel ps total).length_eq.symm

theorem assignRanges_last : ∀ (ps : List Pattern) (total : Nat),
    (assignRanges ps total).getLast? =
      ps.getLast?.map fun p => { p with end_idx := (total : Int) - 1 }
  | [], _ => rfl
  | [_], _ => rfl
  | p :: q :: rest, total => by
    obtain ⟨e, tail, heq⟩ := assignRanges_head q rest total
    have ih := assignRanges_last (q :: rest) total
    rw [show assignRanges (p :: q :: rest) total =
        { p with end_idx := q.start_idx - 1 } :: assignRanges (q :: rest) total from rfl,
      heq, List.getLast?_cons_cons, ← heq, ih, List.getLast?_cons_cons]

theorem contiguousRecords_assignRanges (lines : List String) :
    ∀ (ps : List Pattern) (total : Nat),
      contiguousRecords ((assignRanges ps total).map (buildFoundRecord lines))
        ((total : Nat) : Int) = true
  | [], _ => rfl
  | [p], total => by
    simp [assignRanges, contiguousRecords, buildFoundRecord]
  | p :: q :: rest, total => by
    obtain ⟨e, tail, heq⟩ := assignRanges_head q rest total
    have ih := contiguousRecords_assignRanges lines (q :: rest) total
    rw [show assignRanges (p :: q :: rest) total =
        { p with end_idx := q.start_idx - 1 } :: assignRanges (q :: rest) total from rfl]
    rw [heq] at ih ⊢
    simp only [List.map_cons] at ih ⊢
    rw [show contiguousRecords
        (buildFoundRecord lines { p with end_idx := q.start_idx - 1 } ::
          buildFoundRecord lines { q with end_idx := e } ::
            tail.map (buildFoundRecord lines)) ((total : Nat) : Int) =
        (((buildFoundRecord lines { p with end_idx := q.start_idx - 1 }).end_line ==
          (buildFoundRecord lines { q with end_idx := e }).start_line - 1) &&
          contiguousRecords (buildFoundRecord lines { q with end_idx := e } ::
            tail.map (buildFoundRecord lines)) ((total : Nat) : Int)) from rfl]
    rw [ih]
    simp [buildFoundRecord]

/-! Facts about the pattern list the locator returns inside
parse_log_by_steps, and about the records built from it. -/

theorem parse_eq (log : String) (steps : List StepSpec) (job : String) :
    parse_log_by_steps log steps job =
      setupRecord (logLines log) job ::
        ((assignRanges (sortPatterns
            ((locatedPatterns (logLines log) steps job).filter fun p => p.found))
            (logLines log).length).map (buildFoundRecord (logLines log)) ++
          ((locatedPatterns (logLines log) steps job).filter fun p => !p.found).map
            buildUnfoundRecord) := rfl

theorem mkPattern_unfound (steps : List StepSpec) :
    ∀ p ∈ steps.map mkPattern, p.found = false := by
  intro p hp
  obtain ⟨s, -, rfl⟩ := List.mem_map.mp hp
  rfl

theorem located_rel (lines : List String) (steps : List StepSpec) (job : String) :
    List.Forall₂
      (LocRel (lines.drop (setupEndIdx lines job + 1)) (setupEndIdx lines job + 1))
      (steps.map mkPattern) (locatedPatterns lines steps job) :=
  locateSteps_rel _ _ _

theorem located_found_start {lines : List String} {steps : List StepSpec} {job : String} :
    ∀ q ∈ locatedPatterns lines steps job, q.found = true →
      ∃ k, k < (lines.drop (setupEndIdx lines job + 1)).length ∧
        q.start_idx = ((setupEndIdx lines job + 1 + k : Nat) : Int) ∧
        reSearchCI q.pattern ((lines.drop (setupEndIdx lines job + 1)).getD k "") = true := by
  intro q hq hqf
  obtain ⟨p, hp, hrel⟩ := forall₂_mem_right (located_rel lines steps job) hq
  obtain ⟨-, hpat, -, -, hnf⟩ := hrel
  have hpf := mkPattern_unfound steps p hp
  rcases hnf hpf with hqp | ⟨-, k, hk, hs, hm⟩
  · rw [hqp, hpf] at hqf
    cases hqf
  · exact ⟨k, hk, hs, by rwa [hpat]⟩

theorem located_found_nonneg {lines : List String} {steps : List StepSpec} {job : String} :
    ∀ q ∈ locatedPatterns lines steps job, q.found = true → 0 < q.start_idx := by
  intro q hq hqf
  obtain ⟨k, -, hs, -⟩ := located_found_start q hq hqf
  rw [hs]
  omega

theorem located_pairwise (lines : List String) (steps : List StepSpec) (job : String) :
    List.Pairwise distinctStarts (locatedPatterns lines steps job) :=
  locateSteps_pairwise _ _ _
    (fun p hp hpf => absurd hpf (by simp [mkPattern_unfound steps p hp]))
    (pairwise_distinct_of_unfound (mkPattern_unfound steps))

theorem located_map_step (lines : List String) (steps : List StepSpec) (job : String) :
    (locatedPatterns lines steps job).map (fun p => p.step) = steps := by
  have h := forall₂_map_eq (f := fun p : Pattern => p.step) (g := fun p : Pattern => p.step)
    ((located_rel lines steps job).imp fun _ _ hrel => hrel.1)
  rw [h, List.map_map]
  exact List.map_id steps

theorem located_mem_spec {lines : List String} {steps : List StepSpec} {job : String} :
    ∀ q ∈ locatedPatterns lines steps job,
      q.step ∈ steps ∧ q.pattern = get_step_identifier q.step := by
  intro q hq
  obtain ⟨p, hp, hrel⟩ := forall₂_mem_right (located_rel lines steps job) hq
  obtain ⟨s, hs, rfl⟩ := List.mem_map.mp hp
  have h1 : q.step = s := hrel.1
  exact ⟨by rw [h1]; exact hs, by rw [hrel.2.1, h1]; rfl⟩

theorem ranged_mem {log : String} {steps : List StepSpec} {job : String} :
    ∀ q ∈ assignRanges (sortPatterns
        ((locatedPatterns (logLines log) steps job).filter fun p => p.found))
        (logLines log).length,
      q.found = true ∧ ((setupEndIdx (logLines log) job : Nat) : Int) < q.start_idx ∧
        q.step ∈ steps ∧ q.pattern = get_step_identifier q.step := by
  intro q hq
  obtain ⟨p, hp, hrel⟩ := forall₂_mem_right (assignRanges_rel _ _) hq
  obtain ⟨hstep, hpat, hfound, hstart⟩ := hrel
  have hmem : p ∈ (locatedPatterns (logLines log) steps job).filter (fun p => p.found) :=
    (sortPatterns_perm _).mem_iff.mp hp
  have hpl : p ∈ locatedPatterns (logLines log) steps job := List.mem_of_mem_filter hmem
  have hpf : p.found = true := by simpa using (List.mem_filter.mp hmem).2
  obtain ⟨hsteps, hid⟩ := located_mem_spec p hpl
  refine ⟨by rw [hfound, hpf], ?_, by rw [hstep]; exact hsteps, by rw [hpat, hstep, hid]⟩
  rw [hstart]
  obtain ⟨k, -, hs, -⟩ := located_found_start p hpl hpf
  rw [hs]
  omega

theorem pairwise_transfer {l₁ l₂ : List Pattern}
    (hrel : List.Forall₂ (fun p q => q.start_idx = p.start_idx) l₁ l₂)
    (h : List.Pairwise (fun a b => a.start_idx < b.start_idx) l₁) :
    List.Pairwise (fun a b => a.start_idx < b.start_idx) l₂ := by
  induction hrel with
  | nil => exact .nil
  | cons hab htl ih =>
    rw [List.pairwise_cons] at h
    refine .cons ?_ (ih h.2)
    intro q hq
    obtain ⟨p, hp, hpq⟩ := forall₂_mem_right htl hq
    rw [hab, hpq]
    exact h.1 p hp

theorem sorted_strict {log : String} {steps : List StepSpec} {job : String} :
    List.Pairwise (fun a b => a.start_idx < b.start_idx)
      (sortPatterns ((locatedPatterns (logLines log) steps job).filter fun p => p.found)) := by
  have hle := sortPatterns_sorted
    ((locatedPatterns (logLines log) steps job).filter fun p => p.found)
  have hdist : List.Pairwise distinctStarts
      (sortPatterns ((locatedPatterns (logLines log) steps job).filter fun p => p.found)) := by
    have h1 := (located_pairwise (logLines log) steps job).filter (fun p => p.found)
    exact ((sortPatterns_perm _).pairwise_iff
      (fun h hq hp => (h hp hq).symm)).mpr h1
  have hfound : ∀ p ∈ sortPatterns
      ((locatedPatterns (logLines log) steps job).filter fun p => p.found),
      p.found = true := by
    intro p hp
    have h2 := (sortPatterns_perm _).mem_iff.mp hp
    simpa using (List.mem_filter.mp h2).2
  refine (hle.and hdist).imp_of_mem ?_
  intro a b ha hb hab
  exact lt_of_le_of_ne hab.1 (hab.2 (hfound _ ha) (hfound _ hb))

theorem parse_filter_located (log : String) (steps : List StepSpec) (job : String) :
    (parse_log_by_steps log steps job).filter
        (fun r => r.type == "action" && r.start_line != -1) =
      (assignRanges (sortPatterns
          ((locatedPatterns (logLines log) steps job).filter fun p => p.found))
          (logLines log).length).map (buildFoundRecord (logLines log)) := by
  rw [parse_eq, List.filter_cons]
  have hsetup : (((setupRecord (logLines log) job).type == "action") &&
      ((setupRecord (logLines log) job).start_line != -1)) = false := by
    simp [setupRecord]
  rw [if_neg (by simp [hsetup]), List.filter_append]
  have hfr : ((assignRanges (sortPatterns
        ((locatedPatterns (logLines log) steps job).filter fun p => p.found))
        (logLines log).length).map (buildFoundRecord (logLines log))).filter
      (fun r => r.type == "action" && r.start_line != -1) =
      (assignRanges (sortPatterns
        ((locatedPatterns (logLines log) steps job).filter fun p => p.found))
        (logLines log).length).map (buildFoundRecord (logLines log)) := by
    rw [List.filter_eq_self]
    intro r hr
    obtain ⟨q, hq, rfl⟩ := List.mem_map.mp hr
    obtain ⟨-, hpos, -, -⟩ := ranged_mem q hq
    have hne : q.start_idx ≠ -1 := by omega
    simp [buildFoundRecord, hne]
  have hur : (((locatedPatterns (logLines log) steps job).filter fun p => !p.found).map
      buildUnfoundRecord).filter
      (fun r => r.type == "action" && r.start_line != -1) = [] := by
    rw [List.filter_eq_nil_iff]
    intro r hr
    obtain ⟨q, -, rfl⟩ := List.mem_map.mp hr
    simp [buildUnfoundRecord]
  rw [hfr, hur, List.append_nil]

/-- C1. For every input log string and every list of N step
specifications, parse_log_by_steps returns exactly N plus one records:
one setup record plus exactly one record per input step specification,
whether the step was located in the log or not. -/
theorem parse_length_eq_steps_succ (log : String) (steps : List StepSpec) (job : String) :
    (parse_log_by_steps log steps job).length = steps.length + 1 := by
  rw [parse_eq]
  simp only [List.length_cons, List.length_append, List.length_map]
  rw [assignRanges_length, (sortPatterns_perm _).length_eq, length_filter_found]
  rw [show locatedPatterns (logLines log) steps job =
      locateSteps (steps.map mkPattern)
        ((logLines log).drop (setupEndIdx (logLines log) job + 1))
        (setupEndIdx (logLines log) job + 1) from rfl]
  rw [locateSteps_length, List.length_map]

/-- C3. In every output of parse_log_by_steps, the records of located
steps appear in ascending order of start_line, and in that order each
record's end_line is the next located record's start_line minus one,
while the last located record's end_line is the total number of log
lines minus one. -/
theorem parse_located_ranges (log : String) (steps : List StepSpec) (job : String) :
    List.Pairwise (fun a b => a.start_line < b.start_line)
      ((parse_log_by_steps log steps job).filter
        fun r => r.type == "action" && r.start_line != -1) ∧
    contiguousRecords
      ((parse_log_by_steps log steps job).filter
        fun r => r.type == "action" && r.start_line != -1)
      (((logLines log).length : Int)) = true := by
  rw [parse_filter_located]
  constructor
  · rw [List.pairwise_map]
    have hr := (assignRanges_rel (sortPatterns
        ((locatedPatterns (logLines log) steps job).filter fun p => p.found))
        (logLines log).length).imp
      (fun _ _ h => h.2.2.2)
    exact (pairwise_transfer hr sorted_strict).imp fun h => h
  · exact contiguousRecords_assignRanges (logLines log) _ _

/-- C8. The setup record is the first element of every output, has
start_line 0 and is the only record of type setup; after it come the
located records ordered by the position at which they were discovered in
the log, followed by the unlocated records, whose specification fields
form a subsequence of the input specifications in their original order. -/
theorem parse_output_shape (log : String) (steps : List StepSpec) (job : String) :
    ∃ first foundR unfoundR,
      parse_log_by_steps log steps job = first :: (foundR ++ unfoundR) ∧
      first.type = "setup" ∧ first.start_line = 0 ∧
      (∀ r ∈ foundR, r.type = "action" ∧ r.note = none ∧ r.start_line ≠ -1) ∧
      List.Pairwise (fun a b => a.start_line < b.start_line) foundR ∧
      (∀ r ∈ unfoundR, r.type = "action" ∧ r.start_line = -1 ∧
        r.note = some "Step not found in log") ∧
      List.Sublist (unfoundR.map fun r => (r.run, r.uses, r.wth, r.env))
        (steps.map fun s => (s.run, s.uses, s.wth, s.env)) := by
  refine ⟨setupRecord (logLines log) job,
    (assignRanges (sortPatterns
      ((locatedPatterns (logLines log) steps job).filter fun p => p.found))
      (logLines log).length).map (buildFoundRecord (logLines log)),
    ((locatedPatterns (logLines log) steps job).filter fun p => !p.found).map
      buildUnfoundRecord,
    parse_eq log steps job, rfl, rfl, ?_, ?_, ?_, ?_⟩
  · intro r hr
    obtain ⟨q, hq, rfl⟩ := List.mem_map.mp hr
    obtain ⟨-, hpos, -, -⟩ := ranged_mem q hq
    refine ⟨rfl, rfl, ?_⟩
    simp only [buildFoundRecord]
    omega
  · rw [List.pairwise_map]
    have hr := (assignRanges_rel (sortPatterns
        ((locatedPatterns (logLines log) steps job).filter fun p => p.found))
        (logLines log).length).imp
      (fun _ _ h => h.2.2.2)
    exact (pairwise_transfer hr sorted_strict).imp fun h => h
  · intro r hr
    obtain ⟨q, -, rfl⟩ := List.mem_map.mp hr
    exact ⟨rfl, rfl, rfl⟩
  · rw [List.map_map]
    have h1 : List.Sublist
        ((locatedPatterns (logLines log) steps job).filter fun p => !p.found)
        (locatedPatterns (logLines log) steps job) := List.filter_sublist _
    have h2 := h1.map (fun p : Pattern => (p.step.run, p.step.uses, p.step.wth, p.step.env))
    have h3 : (locatedPatterns (logLines log) steps job).map
        (fun p : Pattern => (p.step.run, p.step.uses, p.step.wth, p.step.env)) =
        steps.map fun s => (s.run, s.uses, s.wth, s.env) := by
      rw [show (fun p : Pattern => (p.step.run, p.step.uses, p.step.wth, p.step.env)) =
          (fun s : StepSpec => (s.run, s.uses, s.wth, s.env)) ∘ (fun p : Pattern => p.step)
          from rfl, ← List.map_map, located_map_step]
    rw [h3] at h2
    exact h2

theorem forall₂_getElem? {α β : Type} {R : α → β → Prop} {l₁ : List α} {l₂ : List β}
    (h : List.Forall₂ R l₁ l₂) (j : Nat) {a : α} (ha : l₁[j]? = some a) :
    ∃ b, l₂[j]? = some b ∧ R a b := by
  induction h generalizing j with
  | nil => simp at ha
  | cons hab htl ih =>
    cases j with
    | zero =>
      simp only [List.getElem?_cons_zero, Option.some.injEq] at ha
      exact ⟨_, by simp, ha ▸ hab⟩
    | succ j =>
      simp only [List.getElem?_cons_succ] at ha ⊢
      exact ih j ha

/-- C6. The locator makes one pass; each line is taken by at most one
pattern, namely the first still-unfound pattern in list order whose
identifier matches the line (one call of the inner loop changes nothing
when no still-unfound pattern matches and otherwise marks exactly that
first match, recording the line's absolute index as its start); every
found pattern of the final state carries the absolute index of a line it
matches, found start indices are pairwise distinct, and a pattern whose
identifier matches no line is returned unchanged, still unfound. -/
theorem locateSteps_one_pass (lines : List String) (start : Nat) (ps : List Pattern)
    (h0 : ∀ p ∈ ps, p.found = false) :
    (locateSteps ps lines start).length = ps.length ∧
    (∀ (qs : List Pattern) (i : Nat) (l : String),
      (∀ p ∈ qs, p.found = true ∨ reSearchCI p.pattern l = false) →
      assignLine qs i l = qs) ∧
    (∀ (pre post : List Pattern) (p : Pattern) (i : Nat) (l : String),
      (∀ q ∈ pre, q.found = true ∨ reSearchCI q.pattern l = false) →
      p.found = false → reSearchCI p.pattern l = true →
      assignLine (pre ++ p :: post) i l =
        pre ++ { p with found := true, start_idx := (i : Int) } :: post) ∧
    (∀ q ∈ locateSteps ps lines start, q.found = true →
      ∃ k, k < lines.length ∧ q.start_idx = ((start + k : Nat) : Int) ∧
        reSearchCI q.pattern (lines.getD k "") = true) ∧
    List.Pairwise distinctStarts (locateSteps ps lines start) ∧
    (∀ (j : Nat) (p : Pattern), ps[j]? = some p →
      (∀ l ∈ lines, reSearchCI p.pattern l = false) →
      (locateSteps ps lines start)[j]? = some p) := by
  refine ⟨locateSteps_length ps lines start,
    fun qs i l h => assignLine_skip h,
    fun pre post p i l hpre hp hm => assignLine_first hpre hp hm, ?_, ?_, ?_⟩
  · intro q hq hqf
    obtain ⟨p, hp, hrel⟩ := forall₂_mem_right (locateSteps_rel lines start ps) hq
    obtain ⟨-, hpat, -, -, hnf⟩ := hrel
    have hpf := h0 p hp
    rcases hnf hpf with hqp | ⟨-, k, hk, hs, hmk⟩
    · rw [hqp, hpf] at hqf
      cases hqf
    · exact ⟨k, hk, hs, by rwa [hpat]⟩
  · exact locateSteps_pairwise lines start ps
      (fun p hp hpf => absurd hpf (by simp [h0 p hp]))
      (pairwise_distinct_of_unfound h0)
  · intro j p hj hnoline
    obtain ⟨q, hq, hrel⟩ := forall₂_getElem? (locateSteps_rel lines start ps) j hj
    obtain ⟨-, -, -, -, hnf⟩ := hrel
    have hpmem : p ∈ ps := by
      have := List.getElem?_eq_some_iff.mp hj
      obtain ⟨hlt, hget⟩ := this
      exact hget ▸ List.getElem_mem hlt
    rcases hnf (h0 p hpmem) with hqp | ⟨-, k, hk, -, hmk⟩
    · rw [hq, hqp]
    · exfalso
      have hmem : lines.getD k "" ∈ lines := by
        rw [List.getD_eq_getElem _ _ hk]
        exact List.getElem_mem hk
      rw [hnoline _ hmem] at hmk
      cases hmk

/-- C7. A step whose identifier is matched by no line of the log is still
reported: its record is in the output with start_line and end_line minus
one, empty log_content and the resolution note set. -/
theorem parse_unfound_step_record (log : String) (steps : List StepSpec) (job : String)
    (s : StepSpec) (hs : s ∈ steps)
    (hm : ∀ l ∈ logLines log, reSearchCI (get_step_identifier s) l = false) :
    ∃ r ∈ parse_log_by_steps log steps job,
      r.run = s.run ∧ r.uses = s.uses ∧
      r.pattern_matched = some (get_step_identifier s) ∧
      r.start_line = -1 ∧ r.end_line = -1 ∧ r.log_content = "" ∧
      r.note = some "Step not found in log" := by
  have hp : mkPattern s ∈ steps.map mkPattern := List.mem_map_of_mem _ hs
  obtain ⟨q, hq, hrel⟩ := forall₂_mem_left (located_rel (logLines log) steps job) hp
  obtain ⟨-, -, -, -, hnf⟩ := hrel
  have hqp : q = mkPattern s := by
    rcases hnf rfl with h | ⟨-, k, hk, -, hmk⟩
    · exact h
    · exfalso
      have hmem : ((logLines log).drop (setupEndIdx (logLines log) job + 1)).getD k "" ∈
          logLines log := by
        rw [List.getD_eq_getElem _ _ hk]
        exact List.drop_subset _ _ (List.getElem_mem hk)
      rw [show (mkPattern s).pattern = get_step_identifier s from rfl,
        hm _ hmem] at hmk
      cases hmk
  have hqf : q.found = false := by rw [hqp]; rfl
  have hqmem : q ∈ (locatedPatterns (logLines log) steps job).filter fun p => !p.found := by
    rw [List.mem_filter]
    exact ⟨hq, by simp [hqf]⟩
  refine ⟨buildUnfoundRecord q, ?_, ?_⟩
  · rw [parse_eq]
    exact List.mem_cons_of_mem _ (List.mem_append_right _ (List.mem_map_of_mem _ hqmem))
  · rw [hqp]
    exact ⟨rfl, rfl, rfl, rfl, rfl, rfl, rfl⟩

/-- C9. When the sentinel line first occurs at index k, the setup record
ends at k while its content joins only the lines before k, and every
located record starts past k, its content the joined slice from its own
start to its own end, so the sentinel line belongs to no record. -/
theorem parse_sentinel_boundary (log : String) (steps : List StepSpec) (job : String)
    (k : Nat)
    (hk : findLineIdx (fun l => pyIn (sentinelOf job) l) (logLines log) = some k)
    (_hk1 : 1 ≤ k) :
    ∃ rest, parse_log_by_steps log steps job =
        { name := "Set up job", type := "setup",
          log_content := String.intercalate "\n" ((logLines log).take k),
          start_line := 0, end_line := (k : Int) } :: rest ∧
      ∀ r ∈ rest, r.start_line ≠ -1 →
        (k : Int) < r.start_line ∧
        r.log_content = sliceJoin (logLines log) r.start_line r.end_line := by
  have hidx : setupEndIdx (logLines log) job = k := by
    unfold setupEndIdx
    rw [hk]
    rfl
  have hlog : setupLog (logLines log) job = (logLines log).take k := by
    unfold setupLog
    rw [hk]
  have hsetup : setupRecord (logLines log) job =
      { name := "Set up job", type := "setup",
        log_content := String.intercalate "\n" ((logLines log).take k),
        start_line := 0, end_line := (k : Int) } := by
    unfold setupRecord
    rw [hidx, hlog]
  refine ⟨_, by rw [parse_eq, hsetup], ?_⟩
  intro r hr hrne
  rcases List.mem_append.mp hr with hf | hu
  · obtain ⟨q, hq, rfl⟩ := List.mem_map.mp hf
    obtain ⟨-, hpos, -, -⟩ := ranged_mem q hq
    rw [hidx] at hpos
    exact ⟨hpos, rfl⟩
  · obtain ⟨q, -, rfl⟩ := List.mem_map.mp hu
    exact absurd rfl hrne

/-- C10. For every step specification in the list that carries no name,
whatever the other steps of the list carry, the output holds that step's
record, and its name depends on whether the step was located: a located
record is named after the fixed tag and the uses reference, just the tag
when that too is absent, while an unlocated record is named Unnamed Step. -/
theorem parse_name_fallback (log : String) (steps : List StepSpec) (job : String)
    (s : StepSpec) (hs : s ∈ steps) (hname : s.name = none) :
    ∃ r ∈ parse_log_by_steps log steps job,
      r.run = s.run ∧ r.uses = s.uses ∧ r.wth = s.wth ∧ r.env = s.env ∧
      r.pattern_matched = some (get_step_identifier s) ∧
      (r.start_line ≠ -1 → r.name = "Run " ++ s.uses.getD "") ∧
      (r.start_line = -1 → r.name = "Unnamed Step") := by
  have hp : mkPattern s ∈ steps.map mkPattern := List.mem_map_of_mem _ hs
  obtain ⟨q, hq, hrel⟩ := forall₂_mem_left (located_rel (logLines log) steps job) hp
  obtain ⟨hstep, hpat, -, -, -⟩ := hrel
  have hstep2 : q.step = s := hstep
  have hpat2 : q.pattern = get_step_identifier s := hpat
  cases hqf : q.found with
  | false =>
    have hqmem : q ∈ (locatedPatterns (logLines log) steps job).filter fun p => !p.found := by
      rw [List.mem_filter]
      exact ⟨hq, by simp [hqf]⟩
    refine ⟨buildUnfoundRecord q, ?_, ?_, ?_, ?_, ?_, ?_, ?_, ?_⟩
    · rw [parse_eq]
      exact List.mem_cons_of_mem _ (List.mem_append_right _ (List.mem_map_of_mem _ hqmem))
    · show q.step.run = s.run
      rw [hstep2]
    · show q.step.uses = s.uses
      rw [hstep2]
    · show q.step.wth = s.wth
      rw [hstep2]
    · show q.step.env = s.env
      rw [hstep2]
    · show some q.pattern = some (get_step_identifier s)
      rw [hpat2]
    · intro habs
      exact absurd rfl habs
    · intro _heq
      show q.step.name.getD "Unnamed Step" = "Unnamed Step"
      rw [hstep2, hname]
      rfl
  | true =>
    have hqmem : q ∈ (locatedPatterns (logLines log) steps job).filter fun p => p.found := by
      rw [List.mem_filter]
      exact ⟨hq, by simp [hqf]⟩
    have hsort : q ∈ sortPatterns
        ((locatedPatterns (logLines log) steps job).filter fun p => p.found) :=
      (sortPatterns_perm _).mem_iff.mpr hqmem
    obtain ⟨w, hw, hrel2⟩ := forall₂_mem_left
      (assignRanges_rel _ (logLines log).length) hsort
    obtain ⟨hwstep, hwpat, -, hwstart⟩ := hrel2
    have hws : w.step = s := by rw [hwstep, hstep2]
    have hpos : 0 < w.start_idx := by
      rw [hwstart]
      exact located_found_nonneg q hq hqf
    refine ⟨buildFoundRecord (logLines log) w, ?_, ?_, ?_, ?_, ?_, ?_, ?_, ?_⟩
    · rw [parse_eq]
      exact List.mem_cons_of_mem _ (List.mem_append_left _ (List.mem_map_of_mem _ hw))
    · show w.step.run = s.run
      rw [hws]
    · show w.step.uses = s.uses
      rw [hws]
    · show w.step.wth = s.wth
      rw [hws]
    · show w.step.env = s.env
      rw [hws]
    · show some w.pattern = some (get_step_identifier s)
      rw [hwpat, hpat2]
    · intro _hne
      show w.step.name.getD ("Run " ++ w.step.uses.getD "") = "Run " ++ s.uses.getD ""
      rw [hws, hname]
      rfl
    · intro habs
      have habs2 : w.start_idx = -1 := habs
      omega

/-- C2 is violated by the code: in a log with no sentinel line,
setup_end_idx keeps its initial value zero, so the setup record spans the
whole log in content yet ends at line zero, and the locator still scans
from line one onward and here resolves the step at line one. -/
theorem parse_no_sentinel_still_locates :
    (parse_log_by_steps "hello\nRun echo hi" [{ run := some "echo hi" }] "build").map
        (fun r => (r.type, r.start_line, r.end_line, r.log_content)) =
      [("setup", 0, 0, "hello\nRun echo hi"), ("action", 1, 1, "Run echo hi")] := by
  decide

/-- C4 as stated is false: the hyphen is not a word character, so the
boundary after the span does hold and Run test matches a line containing
only Run test-unit. -/
theorem run_test_matches_test_unit :
    get_step_identifier { run := some "test" } = "Run test" ∧
    get_step_identifier { run := some "test-unit" } = "Run test-unit" ∧
    reSearchCI "Run test" "Run test-unit" = true := by
  decide

/-- C4 amended: the hyphen acts as a delimiter, so the identifier Run
test does match a line containing only Run test-unit, and when its
pattern precedes Run test-unit in list order it wins that line while Run
test-unit stays unfound. -/
theorem hyphen_boundary_first_pattern_wins :
    (locateSteps [mkPattern { run := some "test" }, mkPattern { run := some "test-unit" }]
        ["Run test-unit"] 1).map (fun p => (p.pattern, p.found, p.start_idx)) =
      [("Run test", true, 1), ("Run test-unit", false, -1)] := by
  decide

/-- C5 is violated by the code on a blank run: a run of one whitespace
line still has a first line, which strips to nothing, so the identifier
is the tag with nothing after it, not the placeholder. -/
theorem blank_run_identifier :
    get_step_identifier { run := some " " } = "Run " ∧
    get_step_identifier { run := some " " } ≠ "Run Unknown Step" := by
  decide

theorem splitlinesAux_head : ∀ (cs acc : List Char), cs ≠ [] ∨ acc ≠ [] →
    (splitlinesAux cs acc).head? =
      some (acc.reverse ++ cs.takeWhile fun c => !(c == '\n') && !(c == '\r')) := by
  intro cs acc
  induction cs, acc using splitlinesAux.induct with
  | case1 acc hacc =>
    intro h
    have h2 : acc ≠ [] := h.resolve_left (by simp)
    rw [List.isEmpty_iff] at hacc
    exact absurd hacc h2
  | case2 acc hacc =>
    intro _
    have h2 : acc.isEmpty = false := by simpa using hacc
    simp [splitlinesAux, h2]
  | case3 rest acc _ =>
    intro _
    simp [splitlinesAux, List.takeWhile_cons]
  | case4 rest acc h1 _ =>
    intro _
    cases rest with
    | nil => simp [splitlinesAux, List.takeWhile_cons]
    | cons c2 rest2 =>
      have hc2 : ¬(c2 = '\n') := fun hc => h1 rest2 (by rw [hc])
      simp [splitlinesAux, List.takeWhile_cons, hc2]
  | case5 rest acc _ =>
    intro _
    simp [splitlinesAux, List.takeWhile_cons]
  | case6 c rest acc h1 h2 h3 ih =>
    intro _
    have hr : (c == '\r') = false := by simpa using h2
    have hn : (c == '\n') = false := by simpa using h3
    have ih2 := ih (Or.inr (by simp))
    rw [show splitlinesAux (c :: rest) acc = splitlinesAux rest (c :: acc) by
      simp [splitlinesAux, h1, h2, h3]]
    rw [ih2]
    simp [List.takeWhile_cons, hr, hn]

theorem pySplitlines_head {raw : String} (h : raw ≠ "") :
    (splitlinesAux raw.toList []).head? =
      some (raw.toList.takeWhile fun c => !(c == '\n') && !(c == '\r')) := by
  have h2 : raw.toList ≠ [] := fun hnil => h (String.ext (by simpa using hnil))
  simpa using splitlinesAux_head raw.toList [] (Or.inl h2)

/-- C5 amended: the priority chain is run before uses before name before
the placeholder, and the run branch derives the tag plus the run's first
line with leading bars then surrounding whitespace stripped; the
placeholder appears for a run only when the run string is empty and so
has no lines, while a blank run still takes the first-line branch. -/
theorem get_step_identifier_priority (step : StepSpec) :
    (step.run = some "" → get_step_identifier step = "Run Unknown Step") ∧
    (∀ raw, step.run = some raw → raw ≠ "" →
      get_step_identifier step = "Run " ++ List.asString (pyStrip
        ((raw.toList.takeWhile fun c => !(c == '\n') && !(c == '\r')).dropWhile
          fun c => c == '|'))) ∧
    (step.run = none → ∀ u, step.uses = some u →
      get_step_identifier step = "Run " ++ u) ∧
    (step.run = none → step.uses = none → ∀ n, step.name = some n →
      get_step_identifier step = "Run " ++ n) ∧
    (step.run = none → step.uses = none → step.name = none →
      get_step_identifier step = "Run Unknown Step") := by
  have hrun : ∀ raw, step.run = some raw → get_step_identifier step =
      match pySplitlines raw with
      | first :: _ =>
        "Run " ++ List.asString (pyStrip (first.toList.dropWhile fun c => c == '|'))
      | [] => "Run Unknown Step" := by
    intro raw h
    unfold get_step_identifier
    rw [h]
  refine ⟨?_, ?_, ?_, ?_, ?_⟩
  · intro h
    rw [hrun "" h]
    rfl
  · intro raw hr hne
    rw [hrun raw hr]
    have hhead := pySplitlines_head hne
    cases haux : splitlinesAux raw.toList [] with
    | nil =>
      rw [haux] at hhead
      cases hhead
    | cons L t =>
      rw [haux] at hhead
      have hL : L = raw.toList.takeWhile fun c => !(c == '\n') && !(c == '\r') := by
        simpa using hhead
      have hps : pySplitlines raw = List.asString L :: t.map List.asString := by
        unfold pySplitlines
        rw [haux]
        rfl
      rw [hps]
      subst hL
      rfl
  · intro hr u hu
    unfold get_step_identifier
    rw [hr, hu]
  · intro hr hu n hn
    unfold get_step_identifier
    rw [hr, hu, hn]
  · intro hr hu hn
    unfold get_step_identifier
    rw [hr, hu, hn]

/-- Witness for the locator theorem at a concrete input: one pattern over
one matching line. -/
theorem locateSteps_one_pass_witness :
    (locateSteps [mkPattern { run := some "echo hi" }] ["Run echo hi"] 1).length = 1 :=
  (locateSteps_one_pass ["Run echo hi"] 1 [mkPattern { run := some "echo hi" }]
    (by decide)).1

/-- Witness for the unfound-step theorem at a concrete input: a uses step
whose identifier occurs nowhere in a one-line log. -/
theorem parse_unfound_step_record_witness :
    ∃ r ∈ parse_log_by_steps "a" [{ uses := some "actions/x" }] "j",
      r.run = none ∧ r.uses = some "actions/x" ∧
      r.pattern_matched = some (get_step_identifier { uses := some "actions/x" }) ∧
      r.start_line = -1 ∧ r.end_line = -1 ∧ r.log_content = "" ∧
      r.note = some "Step not found in log" :=
  parse_unfound_step_record "a" [{ uses := some "actions/x" }] "j"
    { uses := some "actions/x" } (by decide) (by decide)

/-- Witness for the sentinel theorem at a concrete input: the sentinel on
line one, one step located on line two. -/
theorem parse_sentinel_boundary_witness :
    (parse_log_by_steps "x\nComplete job name: j\nRun echo hi"
        [{ run := some "echo hi" }] "j").head? =
      some { name := "Set up job", type := "setup", log_content := "x",
             start_line := 0, end_line := 1 } := by
  obtain ⟨rest, heq, -⟩ := parse_sentinel_boundary
    "x\nComplete job name: j\nRun echo hi" [{ run := some "echo hi" }] "j" 1
    (by decide) (by decide)
  rw [heq]
  simp only [List.head?_cons]
  decide

/-- Witness for the name-fallback theorem at a concrete input: a
nameless uses step sitting in a list next to a named run step. -/
theorem parse_name_fallback_witness :
    ∃ r ∈ parse_log_by_steps "Complete job name: j\nRun actions/x"
        [{ name := some "Build", run := some "echo a" }, { uses := some "actions/x" }] "j",
      r.run = none ∧ r.uses = some "actions/x" ∧ r.wth = [] ∧ r.env = [] ∧
      r.pattern_matched = some (get_step_identifier { uses := some "actions/x" }) ∧
      (r.start_line ≠ -1 → r.name = "Run " ++ (some "actions/x").getD "") ∧
      (r.start_line = -1 → r.name = "Unnamed Step") :=
  parse_name_fallback "Complete job name: j\nRun actions/x"
    [{ name := some "Build", run := some "echo a" }, { uses := some "actions/x" }] "j"
    { uses := some "actions/x" } (by decide) rfl

end GhaSeg
